import Mathlib

/-!
Verification of the two sketch data structures of this repository:
the Bloom-filter membership sketch (`bloom_filter_passwords.py`) and the
HyperLogLog cardinality estimator (`hll_vs_exact.py`).

The cryptographic hash functions (SHA-256 / SHA-1 composed with hex decoding)
are modelled as abstract deterministic functions `String → Nat`, which is the
only property of them the algorithms rely on; every operation takes the hash
as an explicit parameter.  Python floats are idealised as real numbers, and
the one partial library call (`math.log`, which raises `ValueError` on a
non-positive argument) is modelled with `Except`.
-/

/-- A Python value fed to the sketches: `None`, a string, or an int.
`pyStr` is Python's `str()` on these values. -/
inductive PyVal where
  | none
  | str (s : String)
  | int (n : Int)
deriving DecidableEq

/-- Python `str(value)`: `str(None) = "None"`. -/
def pyStr : PyVal → String
  | PyVal.none => "None"
  | PyVal.str s => s
  | PyVal.int n => toString n

/-- State of `BloomFilter`: fields `size`, `num_hashes`, `bit_array`
(a list of 0/1 integers, as in the source). -/
structure BloomFilter where
  size : Nat
  num_hashes : Nat
  bit_array : List Nat
deriving DecidableEq

/-- `BloomFilter.__init__`: raises `ValueError` when `size <= 0` or
`num_hashes <= 0`; otherwise the bit array is `[0] * size`. -/
def BloomFilter.init (size num_hashes : Int) : Except String BloomFilter :=
  if size ≤ 0 then Except.error ("size must be positive")
  else if num_hashes ≤ 0 then Except.error ("num_hashes must be positive")
  else Except.ok { size := size.toNat, num_hashes := num_hashes.toNat,
                   bit_array := List.replicate size.toNat 0 }

/-- `BloomFilter._normalize`: `"" if item is None else str(item)`. -/
def BloomFilter.normalize (item : PyVal) : String :=
  match item with
  | PyVal.none => ""
  | v => pyStr v

/-- `BloomFilter._hashes`: the list of `num_hashes` bit positions
`int(sha256(s + str(i)), 16) % size` for `i` in `range(num_hashes)`. -/
def BloomFilter.hashes (sha256 : String → Nat) (bf : BloomFilter) (item : PyVal) :
    List Nat :=
  (List.range bf.num_hashes).map
    (fun i => sha256 (BloomFilter.normalize item ++ toString i) % bf.size)

/-- The loop body of `BloomFilter.add`: set each position of `ps` to 1. -/
def setBits (arr : List Nat) (ps : List Nat) : List Nat :=
  ps.foldl (fun a pos => a.set pos 1) arr

/-- `BloomFilter.add`: `for pos in self._hashes(item): self.bit_array[pos] = 1`. -/
def BloomFilter.add (sha256 : String → Nat) (bf : BloomFilter) (item : PyVal) :
    BloomFilter :=
  { bf with bit_array := setBits bf.bit_array (BloomFilter.hashes sha256 bf item) }

/-- `BloomFilter.__contains__`: `all(self.bit_array[pos] for pos in self._hashes(item))`
(Python truthiness of an int is `≠ 0`). -/
def BloomFilter.contains (sha256 : String → Nat) (bf : BloomFilter) (item : PyVal) :
    Bool :=
  (BloomFilter.hashes sha256 bf item).all (fun pos => bf.bit_array.getD pos 0 != 0)

/-- A finite sequence of `add` calls. -/
def BloomFilter.addAll (sha256 : String → Nat) (bf : BloomFilter)
    (items : List PyVal) : BloomFilter :=
  items.foldl (BloomFilter.add sha256) bf

/-- Python dict assignment `d[k] = v`: overwrite in place if the key is
present, else append at the end (insertion order preserved). -/
def dictSet (d : List (String × String)) (k v : String) : List (String × String) :=
  if d.any (fun kv => kv.1 = k) then
    d.map (fun kv => if kv.1 = k then (k, v) else kv)
  else d ++ [(k, v)]

/-- `check_password_uniqueness`: classifies each password against the filter,
adding unseen ones, and records the status under the key `str(pwd)`.
Returns the results dict together with the final filter state (the Python
function mutates the filter in place). -/
def check_password_uniqueness (sha256 : String → Nat) (bloom : BloomFilter)
    (new_passwords : List PyVal) : List (String × String) × BloomFilter :=
  new_passwords.foldl
    (fun acc pwd =>
      let results := acc.1
      let b := acc.2
      let already_used := BloomFilter.contains sha256 b pwd
      if already_used then
        (dictSet results (pyStr pwd) ("вже використаний"), b)
      else
        (dictSet results (pyStr pwd) ("унікальний"), BloomFilter.add sha256 b pwd))
    ([], bloom)

/-- `HyperLogLog.MAX_BITS`. -/
def MAX_BITS : Nat := 64

/-- State of `HyperLogLog`: fields `p`, `m`, `registers`. -/
structure HyperLogLog where
  p : Nat
  m : Nat
  registers : List Nat
deriving DecidableEq

/-- `HyperLogLog.__init__`: raises `ValueError` unless `4 <= p <= 16`;
otherwise `m = 1 << p` and `registers = [0] * m`. -/
def HyperLogLog.init (p : Int) : Except String HyperLogLog :=
  if ¬(4 ≤ p ∧ p ≤ 16) then Except.error ("p must be in [4, 16]")
  else Except.ok { p := p.toNat, m := 1 <<< p.toNat,
                   registers := List.replicate (1 <<< p.toNat) 0 }

/-- `HyperLogLog._hash`: `int(sha1(str(value)), 16) & ((1 << MAX_BITS) - 1)`,
with the SHA-1-and-hex-decode composite abstracted as `sha1`. -/
def HyperLogLog.hash (sha1 : String → Nat) (value : PyVal) : Nat :=
  sha1 (pyStr value) &&& ((1 <<< MAX_BITS) - 1)

/-- Python `int.bit_length()` on a natural number. -/
def bit_length (n : Nat) : Nat :=
  if n = 0 then 0 else Nat.log2 n + 1

/-- `HyperLogLog._rho`: with `bits = MAX_BITS - p`, returns `bits + 1` when
`w == 0`, else `(bits - w.bit_length()) + 1`. -/
def HyperLogLog.rho (h : HyperLogLog) (w : Nat) : Nat :=
  let bits := MAX_BITS - h.p
  if w = 0 then bits + 1
  else (bits - bit_length w) + 1

/-- `HyperLogLog.add`: split the 64-bit hash into the top `p` bits (register
index) and the low `MAX_BITS - p` bits (`w`), and raise the register to
`rho(w)` when that is larger. -/
def HyperLogLog.add (sha1 : String → Nat) (h : HyperLogLog) (value : PyVal) :
    HyperLogLog :=
  let x := HyperLogLog.hash sha1 value
  let idx := x >>> (MAX_BITS - h.p)
  let w := x &&& ((1 <<< (MAX_BITS - h.p)) - 1)
  let rho := h.rho w
  if h.registers.getD idx 0 < rho then
    { h with registers := h.registers.set idx rho }
  else h

/-- A finite sequence of `add` calls. -/
def HyperLogLog.addAll (sha1 : String → Nat) (h : HyperLogLog)
    (values : List PyVal) : HyperLogLog :=
  values.foldl (HyperLogLog.add sha1) h

/-- The `alpha_m` constant of `HyperLogLog.count`: the fixed lookup for
`m = 16, 32, 64`, else `0.7213 / (1 + 1.079 / m)`. -/
noncomputable def alpha_m (m : Nat) : ℝ :=
  if m = 16 then 0.673
  else if m = 32 then 0.697
  else if m = 64 then 0.709
  else 0.7213 / (1 + 1.079 / (m : ℝ))

/-- `Z = sum(2.0 ** -v for v in registers)` of `HyperLogLog.count`. -/
noncomputable def Zsum (regs : List Nat) : ℝ :=
  (regs.map (fun (v : Nat) => (2 : ℝ) ^ (-(v : ℤ)))).sum

/-- The raw estimate `E = alpha_m * (m ** 2) / Z` of `HyperLogLog.count`. -/
noncomputable def rawE (h : HyperLogLog) : ℝ :=
  alpha_m h.m * (h.m : ℝ) ^ 2 / Zsum h.registers

open Classical in
/-- The small-range-corrected estimate of `HyperLogLog.count`:
`V = registers.count(0)`; if `E <= 5.0 * m / 2.0 and V != 0` then
`E = m * math.log(m / V)`, else the raw estimate.  (`math.log(m / V)` cannot
fail here: the guard gives `V ≥ 1`, so `m / V > 0` whenever it is taken.) -/
noncomputable def smallE (h : HyperLogLog) : ℝ :=
  if rawE h ≤ 5 * (h.m : ℝ) / 2 ∧ h.registers.count 0 ≠ 0 then
    (h.m : ℝ) * Real.log ((h.m : ℝ) / (h.registers.count 0 : ℝ))
  else rawE h

open Classical in
/-- `HyperLogLog.count`: with `TWO_32 = 2.0 ** 32`, when the corrected
estimate `E` exceeds `TWO_32 / 30` it is replaced by
`-TWO_32 * math.log(1.0 - E / TWO_32)`; `math.log` raises `ValueError`
("math domain error") when its argument is not positive, which is modelled
by the `Except.error` branch. -/
noncomputable def HyperLogLog.count (h : HyperLogLog) : Except String ℝ :=
  if 2 ^ 32 / 30 < smallE h then
    (if 0 < 1 - smallE h / 2 ^ 32 then
      Except.ok (-(2 ^ 32) * Real.log (1 - smallE h / 2 ^ 32))
     else Except.error ("math domain error"))
  else Except.ok (smallE h)

/-! ### Definitions written from the specification's words

These are used only to compare the code's formulas against the
specification (claims C4 and C5): `specAlpha`, `specZ`, `specSmallE` follow
§4.3 of the spec, and `specIdx`, `specW`, `leadZeros`, `specRho` follow the
spec's description of the hash split and of `rho`. -/

/-- Spec §4.3 step 1: the bias constant lookup. -/
noncomputable def specAlpha (m : Nat) : ℝ :=
  if m = 16 then 0.673
  else if m = 32 then 0.697
  else if m = 64 then 0.709
  else 0.7213 / (1 + 1.079 / (m : ℝ))

/-- Spec §4.3 step 2: `Z = Σ 2^(−registers[j])` over all register indices. -/
noncomputable def specZ (regs : List Nat) : ℝ :=
  Finset.sum (Finset.range regs.length) (fun j => (2 : ℝ) ^ (-(regs.getD j 0 : ℤ)))

open Classical in
/-- Spec §4.3 step 4: if `E ≤ 2.5 * m` and at least one register is still
zero, use linear counting `m * ln(m / V)` with `V` the number of zero
registers; otherwise keep the raw estimate `alpha * m^2 / Z`. -/
noncomputable def specSmallE (h : HyperLogLog) : ℝ :=
  if specAlpha h.m * (h.m : ℝ) ^ 2 / specZ h.registers ≤ 2.5 * (h.m : ℝ)
      ∧ 0 ∈ h.registers then
    (h.m : ℝ) * Real.log ((h.m : ℝ) / (h.registers.count 0 : ℝ))
  else specAlpha h.m * (h.m : ℝ) ^ 2 / specZ h.registers

/-- Spec §4.1: the top `p` bits of the 64-bit hash, as a register index. -/
def specIdx (sha1 : String → Nat) (h : HyperLogLog) (value : PyVal) : Nat :=
  HyperLogLog.hash sha1 value / 2 ^ (MAX_BITS - h.p)

/-- Spec §4.1: the remaining `64 − p` bits of the hash, the value `w`. -/
def specW (sha1 : String → Nat) (h : HyperLogLog) (value : PyVal) : Nat :=
  HyperLogLog.hash sha1 value % 2 ^ (MAX_BITS - h.p)

/-- The number of leading zero bits of `w` viewed as a `b`-bit field,
scanning from the most significant bit down. -/
def leadZeros (w : Nat) : Nat → Nat
  | 0 => 0
  | b + 1 => if w.testBit b then 0 else leadZeros w b + 1

/-- Spec §4.3: `rho(w)` = 1 plus the count of leading zero bits of `w`
viewed as a `bits`-bit field (for `w = 0` every bit is zero, giving
`bits + 1`). -/
def specRho (bits w : Nat) : Nat :=
  leadZeros w bits + 1

/-! ### Stateful renderings of the two queries

`BloomFilter.__contains__` and `HyperLogLog.count` are methods on a mutable
object; to settle the frame claim the two queries are rendered in
state-passing style, threading the sketch state through every internal read,
and returning the (possibly updated) state next to the result. -/

/-- `BloomFilter.__contains__` in state-passing style: the conjunction is
folded over the probe positions, each iteration reading `bit_array` from the
threaded state. -/
def BloomFilter.containsS (sha256 : String → Nat) (item : PyVal)
    (bf : BloomFilter) : Bool × BloomFilter :=
  (BloomFilter.hashes sha256 bf item).foldl
    (fun acc pos => (acc.1 && (acc.2.bit_array.getD pos 0 != 0), acc.2))
    (true, bf)

open Classical in
/-- `HyperLogLog.count` in state-passing style: the `Z` sum and the
zero-register count are folded over the registers read from the threaded
state, and the final state is returned next to the estimate. -/
noncomputable def HyperLogLog.countS (h0 : HyperLogLog) :
    Except String ℝ × HyperLogLog :=
  let zp := h0.registers.foldl
    (fun (acc : ℝ × HyperLogLog) (v : Nat) => (acc.1 + (2 : ℝ) ^ (-(v : ℤ)), acc.2))
    (0, h0)
  let vp := zp.2.registers.foldl
    (fun (acc : Nat × HyperLogLog) (v : Nat) => (if v = 0 then acc.1 + 1 else acc.1, acc.2))
    (0, zp.2)
  let h := vp.2
  let E1 := alpha_m h.m * (h.m : ℝ) ^ 2 / zp.1
  let E2 := if E1 ≤ 5 * (h.m : ℝ) / 2 ∧ vp.1 ≠ 0 then
      (h.m : ℝ) * Real.log ((h.m : ℝ) / (vp.1 : ℝ))
    else E1
  if 2 ^ 32 / 30 < E2 then
    (if 0 < 1 - E2 / 2 ^ 32 then
      (Except.ok (-(2 ^ 32) * Real.log (1 - E2 / 2 ^ 32)), h)
     else (Except.error ("math domain error"), h))
  else (Except.ok E2, h)

/-! ### Concrete instantiations used by witnesses and counterexamples

The SHA-based hash is abstract in the embedding (no cryptographic digest can
be evaluated by the kernel), so witnesses instantiate it with small concrete
functions; the spec's §9 explicitly allows substituting the hash function. -/

/-- A tiny stand-in hash used for witnesses. -/
def demoHash (s : String) : Nat := s.length

/-- The decimal value of a digit string (kernel-evaluable). -/
def strVal (s : String) : Nat :=
  s.data.foldl (fun a c => a * 10 + (c.toNat - 48)) 0

/-- An adversarial 64-bit hash: the decimal value of the string, placed in
the top 4 bits of the 64-bit word (so `w = 0` and `rho` is maximal). -/
def advHash (s : String) : Nat := strVal s * 2 ^ 60

/-- A fresh filter as built by `BloomFilter(size=5, num_hashes=2)`. -/
def bfDemo : BloomFilter :=
  { size := 5, num_hashes := 2, bit_array := List.replicate 5 0 }

/-- A fresh estimator as built by `HyperLogLog(p=4)`. -/
def hllDemo : HyperLogLog :=
  { p := 4, m := 16, registers := List.replicate 16 0 }

/-- Sixteen distinct items whose `advHash` values hit each register once. -/
def saturItems : List PyVal :=
  [PyVal.str "0", PyVal.str "1", PyVal.str "2", PyVal.str "3",
   PyVal.str "4", PyVal.str "5", PyVal.str "6", PyVal.str "7",
   PyVal.str "8", PyVal.str "9", PyVal.str "10", PyVal.str "11",
   PyVal.str "12", PyVal.str "13", PyVal.str "14", PyVal.str "15"]

/-- A `p = 4` state with every register at 27 (estimate in the large-range
window below `2^32`). -/
def hllT27 : HyperLogLog :=
  { p := 4, m := 16, registers := List.replicate 16 27 }

/-- A `p = 4` state with every register at 40 (estimate beyond `2^32`). -/
def hllT40 : HyperLogLog :=
  { p := 4, m := 16, registers := List.replicate 16 40 }

/-! ### Helper lemmas about lists -/

lemma getD_set (l : List Nat) (i j a : Nat) :
    (l.set i a).getD j 0 = if i = j ∧ j < l.length then a else l.getD j 0 := by
  induction l generalizing i j with
  | nil => simp
  | cons x t ih =>
    cases i with
    | zero =>
      cases j with
      | zero => simp
      | succ j => simp
    | succ i =>
      cases j with
      | zero => simp
      | succ j =>
        simp only [List.set_cons_succ, List.getD_cons_succ, List.length_cons, ih]
        have : (i = j ∧ j < t.length) ↔ (i + 1 = j + 1 ∧ j + 1 < t.length + 1) := by
          omega
        rw [if_congr this rfl rfl]

lemma set_getD_self (l : List Nat) (i : Nat) : l.set i (l.getD i 0) = l := by
  induction l generalizing i with
  | nil => simp
  | cons x t ih =>
    cases i with
    | zero => simp
    | succ i =>
      show x :: t.set i (t.getD i 0) = x :: t
      rw [ih]

lemma ext_getD (l1 l2 : List Nat) (hlen : l1.length = l2.length)
    (h : ∀ j, l1.getD j 0 = l2.getD j 0) : l1 = l2 := by
  induction l1 generalizing l2 with
  | nil => cases l2 with
    | nil => rfl
    | cons y t => simp at hlen
  | cons x t ih =>
    cases l2 with
    | nil => simp at hlen
    | cons y s =>
      have hx : x = y := h 0
      have ht : t = s := ih s (by simpa using hlen) (fun j => h (j + 1))
      rw [hx, ht]

lemma setBits_length (ps : List Nat) (arr : List Nat) :
    (setBits arr ps).length = arr.length := by
  induction ps generalizing arr with
  | nil => rfl
  | cons p ps ih =>
    show (setBits (arr.set p 1) ps).length = arr.length
    rw [ih, List.length_set]

lemma getD_setBits (ps : List Nat) (arr : List Nat) (j : Nat) :
    (setBits arr ps).getD j 0 = if j ∈ ps ∧ j < arr.length then 1 else arr.getD j 0 := by
  induction ps generalizing arr with
  | nil => simp [setBits]
  | cons p ps ih =>
    show (setBits (arr.set p 1) ps).getD j 0 = _
    rw [ih, List.length_set, getD_set]
    by_cases h2 : j < arr.length
    · simp only [h2, and_true, List.mem_cons]
      by_cases h1 : j ∈ ps
      · simp [h1]
      · by_cases h3 : p = j
        · simp [h1, h3]
        · have h4 : j ≠ p := fun hh => h3 hh.symm
          simp [h1, h3, h4]
    · simp [h2]

/-! ### Lemmas about the Bloom filter -/

lemma add_size (f : String → Nat) (bf : BloomFilter) (x : PyVal) :
    (BloomFilter.add f bf x).size = bf.size := rfl

lemma add_num_hashes (f : String → Nat) (bf : BloomFilter) (x : PyVal) :
    (BloomFilter.add f bf x).num_hashes = bf.num_hashes := rfl

lemma add_bit_length (f : String → Nat) (bf : BloomFilter) (x : PyVal) :
    (BloomFilter.add f bf x).bit_array.length = bf.bit_array.length :=
  setBits_length _ _

lemma hashes_add (f : String → Nat) (bf : BloomFilter) (y x : PyVal) :
    BloomFilter.hashes f (BloomFilter.add f bf y) x = BloomFilter.hashes f bf x := rfl

lemma addAll_cons (f : String → Nat) (bf : BloomFilter) (y : PyVal) (t : List PyVal) :
    BloomFilter.addAll f bf (y :: t) = BloomFilter.addAll f (BloomFilter.add f bf y) t := rfl

lemma contains_of_bits (f : String → Nat) (t : List PyVal) (bf : BloomFilter) (x : PyVal)
    (hbits : ∀ pos ∈ BloomFilter.hashes f bf x, bf.bit_array.getD pos 0 ≠ 0) :
    BloomFilter.contains f (BloomFilter.addAll f bf t) x = true := by
  induction t generalizing bf with
  | nil =>
    simp only [BloomFilter.addAll, List.foldl_nil, BloomFilter.contains,
      List.all_eq_true, bne_iff_ne, ne_eq]
    exact fun pos hp => hbits pos hp
  | cons y t ih =>
    rw [addAll_cons]
    apply ih
    intro pos hp
    rw [hashes_add] at hp
    show (setBits bf.bit_array (BloomFilter.hashes f bf y)).getD pos 0 ≠ 0
    rw [getD_setBits]
    split
    · exact one_ne_zero
    · exact hbits pos hp

lemma no_false_negatives_aux (f : String → Nat) (items : List PyVal) (x : PyVal) :
    ∀ bf : BloomFilter, bf.bit_array.length = bf.size → 0 < bf.size → x ∈ items →
    BloomFilter.contains f (BloomFilter.addAll f bf items) x = true := by
  induction items with
  | nil => intro bf _ _ hx; cases hx
  | cons y t ih =>
    intro bf hlen hsize hx
    rcases List.mem_cons.mp hx with hxy | hxt
    · subst hxy
      rw [addAll_cons]
      apply contains_of_bits
      intro pos hp
      rw [hashes_add] at hp
      show (setBits bf.bit_array (BloomFilter.hashes f bf x)).getD pos 0 ≠ 0
      rw [getD_setBits]
      have hlt : pos < bf.bit_array.length := by
        rw [hlen]
        rcases List.mem_map.mp hp with ⟨i, _, hi⟩
        rw [← hi]
        exact Nat.mod_lt _ hsize
      rw [if_pos ⟨hp, hlt⟩]
      exact one_ne_zero
    · rw [addAll_cons]
      exact ih (BloomFilter.add f bf y)
        (by rw [add_bit_length, hlen]; rfl) hsize hxt

/-! ### Lemmas about the HyperLogLog sketch -/

/-- `HyperLogLog.add` written through an explicit register-level update. -/
def updReg (l : List Nat) (idx rho : Nat) : List Nat :=
  if l.getD idx 0 < rho then l.set idx rho else l

lemma hll_add_eq (f : String → Nat) (h : HyperLogLog) (v : PyVal) :
    HyperLogLog.add f h v =
      { h with registers :=
          (updReg h.registers (HyperLogLog.hash f v >>> (MAX_BITS - h.p))
            (h.rho (HyperLogLog.hash f v &&& ((1 <<< (MAX_BITS - h.p)) - 1)))) } := by
  simp only [HyperLogLog.add, updReg]
  split
  · rfl
  · rfl

lemma hll_add_p (f : String → Nat) (h : HyperLogLog) (v : PyVal) :
    (HyperLogLog.add f h v).p = h.p := by
  rw [hll_add_eq]

lemma hll_add_m (f : String → Nat) (h : HyperLogLog) (v : PyVal) :
    (HyperLogLog.add f h v).m = h.m := by
  rw [hll_add_eq]

lemma hll_add_length (f : String → Nat) (h : HyperLogLog) (v : PyVal) :
    (HyperLogLog.add f h v).registers.length = h.registers.length := by
  rw [hll_add_eq]
  show (updReg _ _ _).length = _
  unfold updReg
  split
  · exact List.length_set ..
  · rfl

lemma updReg_idem (l : List Nat) (idx rho : Nat) :
    updReg (updReg l idx rho) idx rho = updReg l idx rho := by
  by_cases hg : l.getD idx 0 < rho
  · have h1 : updReg l idx rho = l.set idx rho := if_pos hg
    rw [h1]
    unfold updReg
    split
    · exact List.set_set rho rho l idx
    · rfl
  · have h1 : updReg l idx rho = l := if_neg hg
    rw [h1]
    exact h1

lemma updReg_eq_set_max (l : List Nat) (idx rho : Nat) :
    updReg l idx rho = l.set idx (max (l.getD idx 0) rho) := by
  unfold updReg
  split
  next hc => rw [Nat.max_eq_right (le_of_lt hc)]
  next hc =>
    rw [Nat.max_eq_left (Nat.not_lt.mp hc)]
    exact (set_getD_self l idx).symm

lemma hll_rho_le (h : HyperLogLog) (w : Nat) : h.rho w ≤ (MAX_BITS - h.p) + 1 := by
  simp only [HyperLogLog.rho]
  split
  · exact le_refl _
  · have := Nat.sub_le (MAX_BITS - h.p) (bit_length w)
    omega

lemma hll_add_registers_mono (f : String → Nat) (h : HyperLogLog) (v : PyVal) (j : Nat) :
    h.registers.getD j 0 ≤ (HyperLogLog.add f h v).registers.getD j 0 := by
  rw [hll_add_eq]
  show _ ≤ (updReg _ _ _).getD j 0
  unfold updReg
  split
  next hc =>
    rw [getD_set]
    split
    next hij => rw [← hij.1]; exact le_of_lt hc
    next => exact le_refl _
  next => exact le_refl _

lemma hll_add_registers_le (f : String → Nat) (h : HyperLogLog) (v : PyVal) (j : Nat)
    (hb : h.registers.getD j 0 ≤ (MAX_BITS - h.p) + 1) :
    (HyperLogLog.add f h v).registers.getD j 0 ≤ (MAX_BITS - h.p) + 1 := by
  rw [hll_add_eq]
  show (updReg _ _ _).getD j 0 ≤ _
  unfold updReg
  split
  · rw [getD_set]
    split
    · exact hll_rho_le h _
    · exact hb
  · exact hb

lemma hll_addAll_cons (f : String → Nat) (h : HyperLogLog) (v : PyVal) (t : List PyVal) :
    HyperLogLog.addAll f h (v :: t) = HyperLogLog.addAll f (HyperLogLog.add f h v) t := rfl

lemma hll_addAll_p (f : String → Nat) (t : List PyVal) :
    ∀ h : HyperLogLog, (HyperLogLog.addAll f h t).p = h.p := by
  induction t with
  | nil => intro h; rfl
  | cons v t ih =>
    intro h
    rw [hll_addAll_cons, ih, hll_add_p]

lemma hll_addAll_registers_mono (f : String → Nat) (t : List PyVal) :
    ∀ (h : HyperLogLog) (j : Nat),
      h.registers.getD j 0 ≤ (HyperLogLog.addAll f h t).registers.getD j 0 := by
  induction t with
  | nil => intro h j; exact le_refl _
  | cons v t ih =>
    intro h j
    rw [hll_addAll_cons]
    exact le_trans (hll_add_registers_mono f h v j) (ih (HyperLogLog.add f h v) j)

lemma hll_addAll_registers_le (f : String → Nat) (t : List PyVal) :
    ∀ (h : HyperLogLog) (j : Nat),
      h.registers.getD j 0 ≤ (MAX_BITS - h.p) + 1 →
      (HyperLogLog.addAll f h t).registers.getD j 0 ≤ (MAX_BITS - h.p) + 1 := by
  induction t with
  | nil => intro h j hb; exact hb
  | cons v t ih =>
    intro h j hb
    rw [hll_addAll_cons]
    have hp : (HyperLogLog.add f h v).p = h.p := hll_add_p f h v
    have := ih (HyperLogLog.add f h v) j (by rw [hp]; exact hll_add_registers_le f h v j hb)
    rw [hp] at this
    exact this

lemma getD_replicate_zero (n j : Nat) : (List.replicate n (0 : Nat)).getD j 0 = 0 := by
  induction n generalizing j with
  | zero => rfl
  | succ n ih =>
    cases j with
    | zero => rfl
    | succ j => exact ih j

lemma leadZeros_zero (b : Nat) : leadZeros 0 b = b := by
  induction b with
  | zero => rfl
  | succ b ih => simp [leadZeros, Nat.zero_testBit, ih]

lemma leadZeros_eq (w : Nat) (b : Nat) (hw : w ≠ 0) (hlt : w < 2 ^ b) :
    leadZeros w b = b - bit_length w := by
  induction b with
  | zero => exact absurd (Nat.lt_one_iff.mp hlt) hw
  | succ b ih =>
    unfold leadZeros
    by_cases ht : w.testBit b
    · rw [if_pos ht]
      have h1 : 2 ^ b ≤ w := Nat.testBit_implies_ge ht
      have h2 : ¬ Nat.log2 w < b := fun hh =>
        absurd ((Nat.log2_lt hw).mp hh) (Nat.not_lt.mpr h1)
      unfold bit_length
      rw [if_neg hw]
      omega
    · rw [if_neg ht]
      have hwb : w < 2 ^ b := by
        by_contra hge
        push_neg at hge
        have hdiv : w / 2 ^ b = 1 :=
          Nat.div_eq_of_lt_le (by simpa using hge)
            (by
              have : (1 + 1) * 2 ^ b = 2 ^ (b + 1) := by
                rw [pow_succ]
                ring
              omega)
        have htrue : w.testBit b = true := by
          rw [Nat.testBit_to_div_mod, hdiv]
          rfl
        exact absurd htrue (by simpa using ht)
      rw [ih hwb]
      have hbl : bit_length w ≤ b := by
        unfold bit_length
        rw [if_neg hw]
        have : Nat.log2 w < b := (Nat.log2_lt hw).mpr hwb
        omega
      omega

lemma rho_eq_specRho (h : HyperLogLog) (w : Nat) (hw : w < 2 ^ (MAX_BITS - h.p)) :
    h.rho w = specRho (MAX_BITS - h.p) w := by
  simp only [HyperLogLog.rho, specRho]
  by_cases h0 : w = 0
  · subst h0
    rw [if_pos rfl, leadZeros_zero]
  · rw [if_neg h0, leadZeros_eq w _ h0 hw]

lemma hll_hash_lt (f : String → Nat) (v : PyVal) :
    HyperLogLog.hash f v < 2 ^ MAX_BITS := by
  unfold HyperLogLog.hash
  rw [Nat.one_shiftLeft, Nat.and_pow_two_sub_one_eq_mod]
  exact Nat.mod_lt _ (Nat.pos_pow_of_pos _ (by omega))

lemma hll_add_registers_updReg (f : String → Nat) (h : HyperLogLog) (v : PyVal) :
    (HyperLogLog.add f h v).registers =
      updReg h.registers (specIdx f h v)
        (h.rho (specW f h v)) := by
  rw [hll_add_eq]
  show updReg _ _ _ = _
  rw [Nat.shiftRight_eq_div_pow, Nat.one_shiftLeft, Nat.and_pow_two_sub_one_eq_mod]
  rfl

lemma hll_add_idem (f : String → Nat) (h : HyperLogLog) (v : PyVal) :
    HyperLogLog.add f (HyperLogLog.add f h v) v = HyperLogLog.add f h v := by
  rw [hll_add_eq, hll_add_eq]
  exact congrArg (fun r => HyperLogLog.mk h.p h.m r) (updReg_idem h.registers _ _)

lemma bloom_add_idem (f : String → Nat) (bf : BloomFilter) (x : PyVal) :
    BloomFilter.add f (BloomFilter.add f bf x) x = BloomFilter.add f bf x := by
  have harr : setBits (setBits bf.bit_array (BloomFilter.hashes f bf x))
      (BloomFilter.hashes f bf x) = setBits bf.bit_array (BloomFilter.hashes f bf x) := by
    apply ext_getD
    · rw [setBits_length]
    · intro j
      rw [getD_setBits, setBits_length]
      split
      next hc => rw [getD_setBits, if_pos hc]
      next => rfl
  show BloomFilter.mk bf.size bf.num_hashes
      (setBits (setBits bf.bit_array (BloomFilter.hashes f bf x)) (BloomFilter.hashes f bf x))
    = BloomFilter.mk bf.size bf.num_hashes (setBits bf.bit_array (BloomFilter.hashes f bf x))
  rw [harr]

/-! ### Fold helper lemmas for the state-passing queries -/

lemma foldl_pair_snd {α β γ : Type} (g : β → γ → α → β) (l : List α) (b : β) (s : γ) :
    (l.foldl (fun acc v => (g acc.1 acc.2 v, acc.2)) (b, s)).2 = s := by
  induction l generalizing b with
  | nil => rfl
  | cons a l ih => exact ih (g b s a)

lemma foldl_pair_fst {α β γ : Type} (g : β → γ → α → β) (l : List α) (b : β) (s : γ) :
    (l.foldl (fun acc v => (g acc.1 acc.2 v, acc.2)) (b, s)).1 =
      l.foldl (fun x v => g x s v) b := by
  induction l generalizing b with
  | nil => rfl
  | cons a l ih => exact ih (g b s a)

lemma foldl_and_eq_all (q : Nat → Bool) (l : List Nat) :
    ∀ b : Bool, l.foldl (fun x v => x && q v) b = (b && l.all q) := by
  induction l with
  | nil => intro b; simp
  | cons a l ih =>
    intro b
    show l.foldl _ (b && q a) = _
    rw [ih (b && q a), List.all_cons, Bool.and_assoc]

lemma foldl_add_zpow (l : List Nat) :
    ∀ b : ℝ, l.foldl (fun (x : ℝ) (v : Nat) => x + (2 : ℝ) ^ (-(v : ℤ))) b = b + Zsum l := by
  induction l with
  | nil => intro b; simp [Zsum]
  | cons a l ih =>
    intro b
    rw [List.foldl_cons, ih]
    simp only [Zsum, List.map_cons, List.sum_cons]
    ring

lemma foldl_count_zero (l : List Nat) :
    ∀ b : Nat, l.foldl (fun x v => if v = 0 then x + 1 else x) b = b + l.count 0 := by
  induction l with
  | nil => intro b; simp
  | cons a l ih =>
    intro b
    rw [List.foldl_cons, ih]
    by_cases ha : a = 0
    · subst ha
      simp [List.count_cons]
      omega
    · simp [List.count_cons, ha]

/-! ### Real-valued lemmas about the estimate pipeline -/

lemma alpha_m_pos (m : Nat) : 0 < alpha_m m := by
  unfold alpha_m
  split
  · norm_num
  · split
    · norm_num
    · split
      · norm_num
      · have hnn : (0 : ℝ) ≤ 1.079 / (m : ℝ) := by positivity
        have hden : (0 : ℝ) < 1 + 1.079 / (m : ℝ) := by linarith
        positivity

lemma Zsum_nonneg (regs : List Nat) : 0 ≤ Zsum regs := by
  unfold Zsum
  apply List.sum_nonneg
  intro x hx
  rcases List.mem_map.mp hx with ⟨v, _, hv⟩
  rw [← hv]
  positivity

lemma Zsum_pos (regs : List Nat) (hne : regs ≠ []) : 0 < Zsum regs := by
  cases regs with
  | nil => exact absurd rfl hne
  | cons a t =>
    have h1 : (0 : ℝ) < 2 ^ (-(a : ℤ)) := by positivity
    have h2 : 0 ≤ Zsum t := Zsum_nonneg t
    unfold Zsum at h2 ⊢
    rw [List.map_cons, List.sum_cons]
    linarith

lemma rawE_nonneg (h : HyperLogLog) : 0 ≤ rawE h := by
  unfold rawE
  have h1 := alpha_m_pos h.m
  have h2 := Zsum_nonneg h.registers
  positivity

lemma smallE_nonneg (h : HyperLogLog) (hlen : h.registers.length = h.m) :
    0 ≤ smallE h := by
  unfold smallE
  split
  next hc =>
    have hV1 : 1 ≤ h.registers.count 0 := Nat.one_le_iff_ne_zero.mpr hc.2
    have hVm : h.registers.count 0 ≤ h.m := hlen ▸ List.count_le_length 0 h.registers
    have hVpos : (0 : ℝ) < (h.registers.count 0 : ℝ) := by
      exact_mod_cast Nat.lt_of_lt_of_le Nat.zero_lt_one hV1
    have hcast : (h.registers.count 0 : ℝ) ≤ (h.m : ℝ) := by exact_mod_cast hVm
    have hlog : 0 ≤ Real.log ((h.m : ℝ) / (h.registers.count 0 : ℝ)) := by
      apply Real.log_nonneg
      exact (one_le_div hVpos).mpr hcast
    have hm0 : (0 : ℝ) ≤ (h.m : ℝ) := by positivity
    exact mul_nonneg hm0 hlog
  next => exact rawE_nonneg h

lemma count_ok_of_small (h : HyperLogLog) (hlen : h.registers.length = h.m)
    (hsm : smallE h < 2 ^ 32) :
    ∃ e, HyperLogLog.count h = Except.ok e ∧ 0 ≤ e := by
  unfold HyperLogLog.count
  by_cases hbr : 2 ^ 32 / 30 < smallE h
  · rw [if_pos hbr]
    have harg : 0 < 1 - smallE h / 2 ^ 32 := by
      have hd : smallE h / 2 ^ 32 < 1 := (div_lt_one (by positivity)).mpr hsm
      linarith
    rw [if_pos harg]
    refine ⟨_, rfl, ?_⟩
    have hE0 : (0 : ℝ) < smallE h := lt_trans (by positivity) hbr
    have hlt1 : 1 - smallE h / 2 ^ 32 < 1 := by
      have hd : (0 : ℝ) < smallE h / 2 ^ 32 := by positivity
      linarith
    have hlog : Real.log (1 - smallE h / 2 ^ 32) < 0 := Real.log_neg harg hlt1
    nlinarith [hlog]
  · rw [if_neg hbr]
    exact ⟨_, rfl, smallE_nonneg h hlen⟩

lemma Zsum_eq_specZ (regs : List Nat) : Zsum regs = specZ regs := by
  induction regs with
  | nil => simp [Zsum, specZ]
  | cons a t ih =>
    simp only [Zsum, specZ, List.map_cons, List.sum_cons, List.length_cons] at ih ⊢
    rw [Finset.sum_range_succ']
    simp only [List.getD_cons_succ, List.getD_cons_zero]
    rw [← ih]
    ring

lemma alpha_m_eq_specAlpha (m : Nat) : alpha_m m = specAlpha m := rfl

lemma rawE_eq_spec (h : HyperLogLog) :
    rawE h = specAlpha h.m * (h.m : ℝ) ^ 2 / specZ h.registers := by
  unfold rawE
  rw [Zsum_eq_specZ, alpha_m_eq_specAlpha]

lemma smallE_eq_specSmallE (h : HyperLogLog) : smallE h = specSmallE h := by
  unfold smallE specSmallE
  rw [← rawE_eq_spec]
  have h25 : 5 * (h.m : ℝ) / 2 = 2.5 * (h.m : ℝ) := by
    rw [show (2.5 : ℝ) = 5 / 2 by norm_num]
    ring
  have hmem : (h.registers.count 0 ≠ 0) = (0 ∈ h.registers) := by
    rw [Ne, List.count_eq_zero, not_not]
  rw [h25]
  apply if_congr _ rfl rfl
  rw [hmem]

lemma Zsum_replicate (n r : Nat) :
    Zsum (List.replicate n r) = (n : ℝ) * (2 : ℝ) ^ (-(r : ℤ)) := by
  unfold Zsum
  rw [List.map_replicate, List.sum_replicate, nsmul_eq_mul]

lemma smallE_mk_replicate (r : Nat) (hr : r ≠ 0) :
    smallE (HyperLogLog.mk 4 16 (List.replicate 16 r)) =
      0.673 * (16 : ℝ) ^ 2 / (16 * (2 : ℝ) ^ (-(r : ℤ))) := by
  unfold smallE rawE
  have hcount : (List.replicate 16 r).count 0 = 0 := by
    rw [List.count_replicate]
    simp [hr]
  show (if _ ∧ (List.replicate 16 r).count 0 ≠ 0 then _ else
      alpha_m 16 * ((16 : Nat) : ℝ) ^ 2 / Zsum (List.replicate 16 r)) = _
  rw [hcount]
  rw [if_neg (by simp)]
  rw [Zsum_replicate]
  norm_num [alpha_m]

/-! ### Claim theorems -/

/-- Claim C1: for every validly constructed filter (`size > 0`,
`hash_count > 0`), every finite sequence of `add` calls, and every item `x`
occurring in that sequence, a subsequent membership test
(`BloomFilter.__contains__`) returns true: no false negatives. -/
theorem c1_no_false_negatives (sha256 : String → Nat) (s k : Int) (bf : BloomFilter)
    (hinit : BloomFilter.init s k = Except.ok bf) (items : List PyVal) (x : PyVal)
    (hx : x ∈ items) :
    BloomFilter.contains sha256 (BloomFilter.addAll sha256 bf items) x = true := by
  have hbf : bf.bit_array.length = bf.size ∧ 0 < bf.size := by
    unfold BloomFilter.init at hinit
    split at hinit
    next => cases hinit
    next hs =>
      split at hinit
      next => cases hinit
      next hk =>
        cases hinit
        refine ⟨List.length_replicate .., ?_⟩
        show 0 < s.toNat
        omega
  exact no_false_negatives_aux sha256 items x bf hbf.1 hbf.2 hx

/-- Witness for C1 at a concrete filter, hash and item. -/
theorem c1_witness :
    BloomFilter.contains demoHash (BloomFilter.addAll demoHash bfDemo [PyVal.str "a"])
      (PyVal.str "a") = true :=
  c1_no_false_negatives demoHash 5 2 bfDemo rfl [PyVal.str "a"] (PyVal.str "a")
    (List.mem_singleton.mpr rfl)

/-- Claim C5: `add` splits the 64-bit hash into the top `p` bits (a register
index, always in range) and the remaining `64 - p` bits `w`; the register is
updated to `max(registers[idx], rho(w))` where `rho(w)` is 1 plus the count
of leading zero bits of `w` as a `(64 - p)`-bit field, and nothing else
changes. -/
theorem c5_add_splits_hash (sha1 : String → Nat) (h : HyperLogLog) (value : PyVal)
    (hm : h.m = 2 ^ h.p) (hp : h.p ≤ 16) :
    (HyperLogLog.add sha1 h value).registers =
      h.registers.set (specIdx sha1 h value)
        (max (h.registers.getD (specIdx sha1 h value) 0)
          (specRho (MAX_BITS - h.p) (specW sha1 h value)))
    ∧ (HyperLogLog.add sha1 h value).p = h.p
    ∧ (HyperLogLog.add sha1 h value).m = h.m
    ∧ specIdx sha1 h value < h.m := by
  refine ⟨?_, hll_add_p .., hll_add_m .., ?_⟩
  · rw [hll_add_registers_updReg,
      rho_eq_specRho h _ (by
        unfold specW
        exact Nat.mod_lt _ (Nat.pos_pow_of_pos _ (by omega))),
      updReg_eq_set_max]
  · unfold specIdx
    have hx := hll_hash_lt sha1 value
    rw [Nat.div_lt_iff_lt_mul (Nat.pos_pow_of_pos _ (by omega))]
    calc HyperLogLog.hash sha1 value < 2 ^ MAX_BITS := hx
      _ = 2 ^ h.p * 2 ^ (MAX_BITS - h.p) := by
          rw [← pow_add]
          have hMB : MAX_BITS = 64 := rfl
          congr 1
          omega
      _ = h.m * 2 ^ (MAX_BITS - h.p) := by rw [hm]

/-- Witness for C5 at a concrete estimator, hash and item. -/
theorem c5_witness :
    ((HyperLogLog.add advHash hllDemo (PyVal.str "3")).registers =
      hllDemo.registers.set (specIdx advHash hllDemo (PyVal.str "3"))
        (max (hllDemo.registers.getD (specIdx advHash hllDemo (PyVal.str "3")) 0)
          (specRho (MAX_BITS - hllDemo.p) (specW advHash hllDemo (PyVal.str "3")))))
    ∧ (HyperLogLog.add advHash hllDemo (PyVal.str "3")).p = hllDemo.p
    ∧ (HyperLogLog.add advHash hllDemo (PyVal.str "3")).m = hllDemo.m
    ∧ specIdx advHash hllDemo (PyVal.str "3") < hllDemo.m :=
  c5_add_splits_hash advHash hllDemo (PyVal.str "3") rfl (by decide)

/-- Claim C7: after valid construction, registers are monotonically
non-decreasing along any sequence of adds, and always bounded by
`(64 - p) + 1`. -/
theorem c7_register_invariant (sha1 : String → Nat) (p : Int) (h0 : HyperLogLog)
    (hinit : HyperLogLog.init p = Except.ok h0) (l1 l2 : List PyVal) (j : Nat) :
    (HyperLogLog.addAll sha1 h0 l1).registers.getD j 0 ≤
        (HyperLogLog.addAll sha1 h0 (l1 ++ l2)).registers.getD j 0
    ∧ (HyperLogLog.addAll sha1 h0 l1).registers.getD j 0 ≤ (MAX_BITS - h0.p) + 1 := by
  constructor
  · rw [show HyperLogLog.addAll sha1 h0 (l1 ++ l2)
        = HyperLogLog.addAll sha1 (HyperLogLog.addAll sha1 h0 l1) l2 from
      List.foldl_append ..]
    exact hll_addAll_registers_mono sha1 l2 _ j
  · have hreg : h0.registers.getD j 0 = 0 := by
      unfold HyperLogLog.init at hinit
      split at hinit
      next => cases hinit
      next =>
        cases hinit
        exact getD_replicate_zero _ j
    exact hll_addAll_registers_le sha1 l1 h0 j (by rw [hreg]; omega)

/-- Witness for C7 at a concrete estimator and add sequences. -/
theorem c7_witness :
    ((HyperLogLog.addAll advHash hllDemo [PyVal.str "1"]).registers.getD 1 0 ≤
        (HyperLogLog.addAll advHash hllDemo
          ([PyVal.str "1"] ++ [PyVal.str "2"])).registers.getD 1 0)
    ∧ (HyperLogLog.addAll advHash hllDemo [PyVal.str "1"]).registers.getD 1 0 ≤
        (MAX_BITS - hllDemo.p) + 1 :=
  c7_register_invariant advHash 4 hllDemo rfl [PyVal.str "1"] [PyVal.str "2"] 1

/-- Claim C8: adding the same item twice in succession leaves either sketch
in exactly the state reached after adding it once. -/
theorem c8_idempotent_add (f g : String → Nat) (bf : BloomFilter) (h : HyperLogLog)
    (x y : PyVal) :
    BloomFilter.add f (BloomFilter.add f bf x) x = BloomFilter.add f bf x
    ∧ HyperLogLog.add g (HyperLogLog.add g h y) y = HyperLogLog.add g h y :=
  ⟨bloom_add_idem f bf x, hll_add_idem g h y⟩

/-- Claim C9: construction fails exactly on `size ≤ 0` or `hash_count ≤ 0`
(resp. `p` outside `[4, 16]`), returning only an error value (no partially
constructed sketch); on success bits (resp. registers) start all zero. -/
theorem c9_construction (s k p : Int) :
    ((∃ bf, BloomFilter.init s k = Except.ok bf) ↔ 0 < s ∧ 0 < k)
    ∧ (∀ bf, BloomFilter.init s k = Except.ok bf →
        bf.size = s.toNat ∧ bf.num_hashes = k.toNat ∧
        bf.bit_array = List.replicate s.toNat 0)
    ∧ ((∃ hl, HyperLogLog.init p = Except.ok hl) ↔ 4 ≤ p ∧ p ≤ 16)
    ∧ (∀ hl, HyperLogLog.init p = Except.ok hl →
        hl.p = p.toNat ∧ hl.m = 2 ^ p.toNat ∧
        hl.registers = List.replicate (2 ^ p.toNat) 0) := by
  refine ⟨?_, ?_, ?_, ?_⟩
  · unfold BloomFilter.init
    constructor
    · rintro ⟨bf, hbf⟩
      split at hbf
      next => cases hbf
      next hs =>
        split at hbf
        next => cases hbf
        next hk => constructor <;> omega
    · rintro ⟨hs, hk⟩
      rw [if_neg (by omega), if_neg (by omega)]
      exact ⟨_, rfl⟩
  · intro bf hbf
    unfold BloomFilter.init at hbf
    split at hbf
    next => cases hbf
    next =>
      split at hbf
      next => cases hbf
      next =>
        cases hbf
        exact ⟨rfl, rfl, rfl⟩
  · unfold HyperLogLog.init
    constructor
    · rintro ⟨hl, hhl⟩
      split at hhl
      next => cases hhl
      next hcond => exact not_not.mp hcond
    · intro hrange
      rw [if_neg (not_not.mpr hrange)]
      exact ⟨_, rfl⟩
  · intro hl hhl
    unfold HyperLogLog.init at hhl
    split at hhl
    next => cases hhl
    next =>
      cases hhl
      refine ⟨rfl, ?_, ?_⟩
      · exact Nat.one_shiftLeft _
      · rw [Nat.one_shiftLeft]

/-- Witness for C9: a valid and an invalid construction. -/
theorem c9_witness :
    (∃ bf, BloomFilter.init 1000 3 = Except.ok bf)
    ∧ ¬(∃ hl, HyperLogLog.init 3 = Except.ok hl) := by
  constructor
  · exact (c9_construction 1000 3 3).1.mpr (by constructor <;> decide)
  · intro hex
    have h := (c9_construction 1000 3 3).2.2.1.mp hex
    omega

lemma smallE_hllDemo0 : smallE (HyperLogLog.mk 4 16 (List.replicate 16 0)) = 0 := by
  unfold smallE
  show (if rawE (HyperLogLog.mk 4 16 (List.replicate 16 0)) ≤ 5 * ((16 : Nat) : ℝ) / 2
        ∧ (List.replicate 16 (0 : Nat)).count 0 ≠ 0 then
      ((16 : Nat) : ℝ) *
        Real.log (((16 : Nat) : ℝ) / (((List.replicate 16 (0 : Nat)).count 0 : Nat) : ℝ))
    else rawE (HyperLogLog.mk 4 16 (List.replicate 16 0))) = 0
  have hraw : rawE (HyperLogLog.mk 4 16 (List.replicate 16 0)) = 0.673 * (16 : ℝ) ^ 2 / 16 := by
    unfold rawE
    show alpha_m 16 * ((16 : Nat) : ℝ) ^ 2 / Zsum (List.replicate 16 0) = _
    rw [Zsum_replicate]
    norm_num [alpha_m]
  have hcount : (List.replicate 16 (0 : Nat)).count 0 = 16 := by decide
  rw [hraw, hcount, if_pos (by norm_num)]
  norm_num

/-- Claim C2 (amended): on a well-formed state, `count` succeeds with a
non-negative real result whenever the small-range-corrected estimate stays
below `2^32`; at or beyond `2^32` the large-range correction takes the log
of a non-positive number and `math.log` raises. -/
theorem c2_estimate_total (h : HyperLogLog) (hlen : h.registers.length = h.m)
    (hsm : smallE h < 2 ^ 32) :
    ∃ e, HyperLogLog.count h = Except.ok e ∧ 0 ≤ e :=
  count_ok_of_small h hlen hsm

/-- Witness for C2 on a freshly constructed estimator. -/
theorem c2_witness : ∃ e, HyperLogLog.count hllDemo = Except.ok e ∧ 0 ≤ e :=
  c2_estimate_total hllDemo rfl
    (by
      rw [show hllDemo = HyperLogLog.mk 4 16 (List.replicate 16 0) from rfl,
        smallE_hllDemo0]
      norm_num)

/-- Counterexample to C2 as stated: starting from a validly constructed
estimator, sixteen adds under a 64-bit hash drive every register to its
maximum 61, after which `count` raises `ValueError` in its
large-range-correction branch instead of returning an estimate. -/
theorem c2_counterexample :
    HyperLogLog.init 4 = Except.ok hllDemo
    ∧ HyperLogLog.addAll advHash hllDemo saturItems =
        HyperLogLog.mk 4 16 (List.replicate 16 61)
    ∧ HyperLogLog.count (HyperLogLog.addAll advHash hllDemo saturItems) =
        Except.error ("math domain error") := by
  have hstate : HyperLogLog.addAll advHash hllDemo saturItems =
      HyperLogLog.mk 4 16 (List.replicate 16 61) := by decide
  refine ⟨rfl, hstate, ?_⟩
  rw [hstate]
  unfold HyperLogLog.count
  rw [smallE_mk_replicate 61 (by decide)]
  rw [if_pos (by rw [zpow_neg]; norm_num), if_neg (by rw [zpow_neg]; norm_num)]

/-- Claim C4: the estimate pipeline of `count` agrees with the
specification's formulas: the alpha lookup, `Z = Σ 2^(−registers[j])`,
`E = alpha * m² / Z`, the small-range replacement by `m * ln(m / V)` under
`E ≤ 2.5 m` with a zero register, and (below the large-range threshold)
`count` returning that corrected estimate. -/
theorem c4_estimation_formula (h : HyperLogLog) :
    alpha_m h.m = specAlpha h.m
    ∧ Zsum h.registers = specZ h.registers
    ∧ rawE h = specAlpha h.m * (h.m : ℝ) ^ 2 / specZ h.registers
    ∧ smallE h = specSmallE h
    ∧ (¬ 2 ^ 32 / 30 < smallE h → HyperLogLog.count h = Except.ok (smallE h)) := by
  refine ⟨alpha_m_eq_specAlpha h.m, Zsum_eq_specZ h.registers, rawE_eq_spec h,
    smallE_eq_specSmallE h, ?_⟩
  intro hle
  unfold HyperLogLog.count
  rw [if_neg hle]

/-- Witness for C4 on a freshly constructed estimator. -/
theorem c4_witness : HyperLogLog.count hllDemo = Except.ok (smallE hllDemo) := by
  refine (c4_estimation_formula hllDemo).2.2.2.2 ?_
  rw [show hllDemo = HyperLogLog.mk 4 16 (List.replicate 16 0) from rfl,
    smallE_hllDemo0]
  norm_num

/-- Claim C6 (amended): when the corrected estimate `E` lies strictly
between `2^32 / 30` and `2^32`, `count` returns
`-2^32 * ln(1 - E / 2^32)` — the pinned `2^32` constant — and when
`E ≥ 2^32` this branch raises instead of returning. -/
theorem c6_large_range (h : HyperLogLog)
    (h1 : 2 ^ 32 / 30 < smallE h) (h2 : smallE h < 2 ^ 32) :
    HyperLogLog.count h = Except.ok (-(2 ^ 32) * Real.log (1 - smallE h / 2 ^ 32)) := by
  have harg : 0 < 1 - smallE h / 2 ^ 32 := by
    have hd : smallE h / 2 ^ 32 < 1 := (div_lt_one (by positivity)).mpr h2
    linarith
  unfold HyperLogLog.count
  rw [if_pos h1, if_pos harg]

/-- Witness for C6: a register state whose estimate lies inside the
large-range window. -/
theorem c6_witness :
    HyperLogLog.count hllT27 =
      Except.ok (-(2 ^ 32) * Real.log (1 - smallE hllT27 / 2 ^ 32)) :=
  c6_large_range hllT27
    (by
      rw [show hllT27 = HyperLogLog.mk 4 16 (List.replicate 16 27) from rfl,
        smallE_mk_replicate 27 (by decide), zpow_neg]
      norm_num)
    (by
      rw [show hllT27 = HyperLogLog.mk 4 16 (List.replicate 16 27) from rfl,
        smallE_mk_replicate 27 (by decide), zpow_neg]
      norm_num)

/-- Counterexample to C6 as stated: a register state whose estimate exceeds
`2^32 / 30`, yet `count` raises rather than returning the corrected value
(the estimate also reaches `2^32`, making the log argument non-positive). -/
theorem c6_counterexample :
    2 ^ 32 / 30 < smallE hllT40
    ∧ HyperLogLog.count hllT40 = Except.error ("math domain error") := by
  have h40 : hllT40 = HyperLogLog.mk 4 16 (List.replicate 16 40) := rfl
  constructor
  · rw [h40, smallE_mk_replicate 40 (by decide), zpow_neg]
    norm_num
  · rw [h40]
    unfold HyperLogLog.count
    rw [smallE_mk_replicate 40 (by decide)]
    rw [if_pos (by rw [zpow_neg]; norm_num), if_neg (by rw [zpow_neg]; norm_num)]

open Classical in
lemma smallE_unfold (h : HyperLogLog) :
    smallE h = (if alpha_m h.m * (h.m : ℝ) ^ 2 / Zsum h.registers ≤ 5 * (h.m : ℝ) / 2
        ∧ h.registers.count 0 ≠ 0 then
      (h.m : ℝ) * Real.log ((h.m : ℝ) / (h.registers.count 0 : ℝ))
    else alpha_m h.m * (h.m : ℝ) ^ 2 / Zsum h.registers) := rfl

lemma countS_eq (h : HyperLogLog) :
    HyperLogLog.countS h = (HyperLogLog.count h, h) := by
  simp only [HyperLogLog.countS]
  have hz2 : (h.registers.foldl
      (fun (acc : ℝ × HyperLogLog) (v : Nat) => (acc.1 + (2 : ℝ) ^ (-(v : ℤ)), acc.2))
      (0, h)).2 = h :=
    foldl_pair_snd (fun x (_ : HyperLogLog) (v : Nat) => x + (2 : ℝ) ^ (-(v : ℤ)))
      h.registers 0 h
  have hz1 : (h.registers.foldl
      (fun (acc : ℝ × HyperLogLog) (v : Nat) => (acc.1 + (2 : ℝ) ^ (-(v : ℤ)), acc.2))
      (0, h)).1 = Zsum h.registers :=
    (foldl_pair_fst (fun x (_ : HyperLogLog) (v : Nat) => x + (2 : ℝ) ^ (-(v : ℤ)))
      h.registers 0 h).trans (by rw [foldl_add_zpow]; exact zero_add _)
  rw [hz2, hz1]
  have hv2 : (h.registers.foldl
      (fun (acc : Nat × HyperLogLog) (v : Nat) => (if v = 0 then acc.1 + 1 else acc.1, acc.2))
      (0, h)).2 = h :=
    foldl_pair_snd (fun x (_ : HyperLogLog) (v : Nat) => if v = 0 then x + 1 else x)
      h.registers 0 h
  have hv1 : (h.registers.foldl
      (fun (acc : Nat × HyperLogLog) (v : Nat) => (if v = 0 then acc.1 + 1 else acc.1, acc.2))
      (0, h)).1 = h.registers.count 0 :=
    (foldl_pair_fst (fun x (_ : HyperLogLog) (v : Nat) => if v = 0 then x + 1 else x)
      h.registers 0 h).trans (by rw [foldl_count_zero]; exact zero_add _)
  rw [hv2, hv1, ← smallE_unfold]
  unfold HyperLogLog.count
  split
  next =>
    split
    next => rfl
    next => rfl
  next => rfl

lemma containsS_eq (f : String → Nat) (bf : BloomFilter) (item : PyVal) :
    BloomFilter.containsS f item bf = (BloomFilter.contains f bf item, bf) := by
  unfold BloomFilter.containsS
  rw [Prod.ext_iff]
  constructor
  · exact (foldl_pair_fst (fun b (s : BloomFilter) pos => b && (s.bit_array.getD pos 0 != 0))
      (BloomFilter.hashes f bf item) true bf).trans
      ((foldl_and_eq_all _ _ true).trans (Bool.true_and _))
  · exact foldl_pair_snd (fun b (s : BloomFilter) pos => b && (s.bit_array.getD pos 0 != 0))
      (BloomFilter.hashes f bf item) true bf

/-- Claim C10: the two queries read but never write the sketch state: in
state-passing form, `__contains__` and `count` return the state unchanged
(hence `size`, `num_hashes`, `bit_array`, `p`, `m`, `registers` are all
untouched), and their results agree with the pure renderings. -/
theorem c10_queries_pure (f : String → Nat) (bf : BloomFilter) (item : PyVal)
    (h : HyperLogLog) :
    (BloomFilter.containsS f item bf).2 = bf
    ∧ (BloomFilter.containsS f item bf).1 = BloomFilter.contains f bf item
    ∧ (HyperLogLog.countS h).2 = h
    ∧ (HyperLogLog.countS h).1 = HyperLogLog.count h := by
  rw [containsS_eq, countS_eq]
  exact ⟨rfl, rfl, rfl, rfl⟩

/-- Claim C3 (amended): the Bloom filter normalizes `None` to `""` before
hashing (so `None` and `""` hash identically there), but the report of
`check_password_uniqueness` is keyed by `str(pwd)` — `"None"` for `None` —
and `HyperLogLog._hash` likewise hashes `str(value)`; the canonicalizations
disagree at `None`. -/
theorem c3_normalization (f g : String → Nat) (bf : BloomFilter) :
    BloomFilter.normalize PyVal.none = ""
    ∧ pyStr PyVal.none = "None"
    ∧ BloomFilter.hashes f bf PyVal.none = BloomFilter.hashes f bf (PyVal.str "")
    ∧ HyperLogLog.hash g PyVal.none = HyperLogLog.hash g (PyVal.str "None")
    ∧ (check_password_uniqueness f bf [PyVal.none]).1
        = [("None", if BloomFilter.contains f bf PyVal.none then "вже використаний"
            else "унікальний")] := by
  refine ⟨rfl, rfl, rfl, rfl, ?_⟩
  unfold check_password_uniqueness
  rw [List.foldl_cons, List.foldl_nil]
  cases hc : BloomFilter.contains f bf PyVal.none <;>
    simp [dictSet, pyStr, hc]

/-- Counterexample to C3 as stated: for `None` input the report key of
`check_password_uniqueness` is `"None"`, not the empty string, and the
Cardinality Estimator hashes `"None"`, not the empty string. -/
theorem c3_counterexample :
    BloomFilter.normalize PyVal.none = ""
    ∧ (check_password_uniqueness demoHash bfDemo [PyVal.none]).1 = [("None", "унікальний")]
    ∧ ("None" : String) ≠ ""
    ∧ HyperLogLog.hash demoHash PyVal.none ≠ HyperLogLog.hash demoHash (PyVal.str "") := by
  exact ⟨rfl, by decide, by decide, by decide⟩
